import Mathlib

/-!
Verification of the path-addressed YAML mutation engine of
`actions/k8s-manifest-updater/src/index.ts` (class `K8sManifestUpdater`),
together with its commit-metadata inference.

The YAML document tree is embedded as a closed inductive `Node`
(mapping / sequence / scalar), mirroring how the `yaml` library's
`YAMLMap.get` unwraps scalars to JavaScript primitive values: a scalar
carries either a string, a number, a boolean or null, which is exactly
the information the source branches on (`typeof value === 'string'`,
`item.get(k) === v` strict equality, `isMap` / `isSeq`).

The external `yaml` library's text-level `parseDocument` / `toString`
are not part of this repository; they enter the engine only at the
nested-document bridge and are therefore passed in as parameters
`parse : String → Node` and `serialize : Node → String`, so every
theorem below holds for an arbitrary parser/serializer pair.

The source mutates the document in place; the embedding threads the
tree explicitly: `traverseAndSet` returns the (possibly updated) tree
next to the boolean the source returns, plus the list of diagnostics
the source emits via `this.log` (as structured events carrying the
interpolated data).
-/

namespace K8sUpdater

/-- A YAML scalar as unwrapped by `YAMLMap.get` / `YAMLSeq` items:
a JavaScript primitive value. -/
inductive Scalar where
  | str (s : String)
  | num (n : Int)
  | bool (b : Bool)
  | null
deriving DecidableEq, Repr

/-- A YAML document tree: mapping, sequence or scalar.  Mapping keys are
strings (the engine only ever looks keys up by string). -/
inductive Node where
  | scalar (v : Scalar)
  | map (entries : List (String × Node))
  | seq (items : List Node)

/-- The `selector` field of a `PathPart` (source interface `PathPart.selector`). -/
structure Selector where
  key : String
  value : String
deriving DecidableEq, Repr

/-- One step of a parsed path (source interface `PathPart`). -/
structure PathPart where
  key : String
  selector : Option Selector
deriving DecidableEq, Repr

/-- JavaScript `\w` character class: ASCII letters, digits, underscore. -/
def isWordChar (c : Char) : Bool :=
  ('a' ≤ c && c ≤ 'z') || ('A' ≤ c && c ≤ 'Z') || ('0' ≤ c && c ≤ '9') || c == '_'

/-- Characters matched by `.` in a JavaScript regex without the `s` flag:
everything except the four line terminators. -/
def isRegexAny (c : Char) : Bool :=
  !(c == '\n' || c == '\r' || c == '\u2028' || c == '\u2029')

/-- JavaScript `String.prototype.split` with a single-character separator
(`path.split('.')`, `image.split(':')`, …): always at least one segment,
empty string yields one empty segment. -/
def splitOnChar (sep : Char) : List Char → List (List Char)
  | [] => [[]]
  | c :: rest =>
    if c == sep then [] :: splitOnChar sep rest
    else
      match splitOnChar sep rest with
      | [] => [[c]]
      | seg :: segs => (c :: seg) :: segs

/-- JavaScript `Array.prototype.join` with a single-character separator. -/
def joinWithChar (sep : Char) : List (List Char) → List Char
  | [] => []
  | [x] => x
  | x :: y :: rest => x ++ sep :: joinWithChar sep (y :: rest)

/-- Matching a whole path segment against the source regex
`/^(\w+)\[(\w+)=(.+)\]$/` (in `parsePath`), returning the three capture
groups.  Group 3 is greedy `.+` followed by the final `\]$`, so it is
everything strictly between the `=` and the segment's last character,
which must be `]`; it may itself contain `]`, must be non-empty, and may
not contain a line terminator. -/
def matchSegment (s : List Char) : Option (String × String × String) :=
  let key := s.takeWhile isWordChar
  match s.dropWhile isWordChar with
  | c1 :: rest2 =>
    if c1 = '[' then
      let pk := rest2.takeWhile isWordChar
      match rest2.dropWhile isWordChar with
      | c2 :: rest4 =>
        if c2 = '=' then
          match rest4.getLast? with
          | some c3 =>
            if c3 = ']' then
              let v := rest4.dropLast
              if key.isEmpty || pk.isEmpty || v.isEmpty || !(v.all isRegexAny) then none
              else some (String.mk key, String.mk pk, String.mk v)
            else none
          | none => none
        else none
      | [] => none
    else none
  | [] => none

/-- How one path segment becomes a `PathPart` in source `parsePath`:
a regex match yields a selector step, anything else is a literal key. -/
def segmentToPart (seg : List Char) : PathPart :=
  match matchSegment seg with
  | some (k, pk, pv) => { key := k, selector := some { key := pk, value := pv } }
  | none => { key := String.mk seg, selector := none }

/-- Source `parsePath`: split on `.`, each segment either matches the
bracket-selector regex or is kept as a literal key. -/
def parsePath (path : String) : List PathPart :=
  (splitOnChar '.' path.data).map segmentToPart

/-- The exact language of the selector-segment regex
`/^(\w+)\[(\w+)=(.+)\]$/`, as a decomposition of the segment:
`key` and `pk` are non-empty word-character runs, `pv` is a non-empty
run of non-line-terminator characters (it may contain further `]`), and
the segment's final character is `]`. -/
def SegForm (s key pk pv : List Char) : Prop :=
  s = key ++ '[' :: (pk ++ '=' :: (pv ++ [']'])) ∧
  key ≠ [] ∧ key.all isWordChar = true ∧
  pk ≠ [] ∧ pk.all isWordChar = true ∧
  pv ≠ [] ∧ pv.all isRegexAny = true

/-- The library operation `YAMLMap.get` (scalars unwrapped): value of the first entry with the
given key, `none` playing the role of JavaScript `undefined`. -/
def mapGet : List (String × Node) → String → Option Node
  | [], _ => none
  | (k', v') :: rest, k => if k' == k then some v' else mapGet rest k

/-- The library operation `YAMLMap.set`: overwrite the value of the first entry with the given
key, or append a new entry. -/
def mapSet : List (String × Node) → String → Node → List (String × Node)
  | [], k, v => [(k, v)]
  | (k', v') :: rest, k, v =>
    if k' == k then (k', v) :: rest else (k', v') :: mapSet rest k v

/-- The predicate of the source selector scan
`isMap(item) && item.get(selector.key) === selector.value`:
strict (`===`) equality of the unwrapped entry against the predicate
value string, so only a string scalar equal to it matches. -/
def selMatches (item : Node) (pk pv : String) : Bool :=
  match item with
  | Node.map es =>
    match mapGet es pk with
    | some (Node.scalar (Scalar.str s)) => s == pv
    | _ => false
  | _ => false

/-- In-place mutation of the first selector-matching element of a
sequence, expressed functionally: replace the first element satisfying
`selMatches · pk pv` (the one `find?` returned) by `v`. -/
def setFirstMatch : List Node → String → String → Node → List Node
  | [], _, _, _ => []
  | it :: rest, pk, pv, v =>
    if selMatches it pk pv then v :: rest else it :: setFirstMatch rest pk pv v

/-- The diagnostics the source emits via `this.log` inside
`traverseAndSet`, as structured events carrying the data the source
interpolates into the message text. -/
inductive LogMsg where
  | couldNotFindItem (key selKey selValue : String)
  | expectedSequence (key : String) (found : Option Node)
  | updatedNested (nestedPath key newValue : String)
  | expectedString (key : String) (found : Option Node)
  | updatedDirect (key : String) (oldValue : Option Node) (newValue : String)
  | expectedMap (key : String) (found : Option Node)

/-- Source `traverseAndSet` specialised to an absent `nestedPath`
argument (the shape in which the engine invokes itself on a nested
document: `this.updateYamlPath(nestedDoc, nestedPath, newValue)` passes
no fourth argument).  Splitting this instance out keeps the recursion
structural; `traverseAndSet_none` below proves it agrees with the
general function at `nestedPath = none`.

Returns (boolean result, tree after the call, diagnostics emitted). -/
def traverseAndSetNoNest : Node → List PathPart → String → Bool × Node × List LogMsg
  | node, [], _ => (false, node, [])
  | node, part :: rest, newValue =>
    match node with
    | Node.map entries =>
      let value := mapGet entries part.key
      match part.selector with
      | some sel =>
        match value with
        | some (Node.seq items) =>
          match items.find? (fun it => selMatches it sel.key sel.value) with
          | some found =>
            if rest.isEmpty then
              (true, Node.map (mapSet entries part.key (Node.scalar (Scalar.str newValue))),
                [LogMsg.updatedDirect part.key value newValue])
            else
              let r := traverseAndSetNoNest found rest newValue
              (r.1, Node.map (mapSet entries part.key
                (Node.seq (setFirstMatch items sel.key sel.value r.2.1))), r.2.2)
          | none => (false, node, [LogMsg.couldNotFindItem part.key sel.key sel.value])
        | _ => (false, node, [LogMsg.expectedSequence part.key value])
      | none =>
        if rest.isEmpty then
          (true, Node.map (mapSet entries part.key (Node.scalar (Scalar.str newValue))),
            [LogMsg.updatedDirect part.key value newValue])
        else
          match value with
          | some v =>
            let r := traverseAndSetNoNest v rest newValue
            (r.1, Node.map (mapSet entries part.key r.2.1), r.2.2)
          | none =>
            (false, node, [LogMsg.expectedMap (rest.headD { key := "", selector := none }).key none])
    | _ => (false, node, [LogMsg.expectedMap part.key (some node)])

/-- Source `traverseAndSet` with its optional `nestedPath` argument.
The nested-document branch parses the string value, runs the engine on
the fresh document with the nested path (and no further nested path,
exactly as `this.updateYamlPath(nestedDoc, nestedPath, newValue)` does),
and only on success overwrites the outer entry with the serialized
nested document. -/
def traverseAndSet (parse : String → Node) (serialize : Node → String) :
    Node → List PathPart → String → Option String → Bool × Node × List LogMsg
  | node, [], _, _ => (false, node, [])
  | node, part :: rest, newValue, nestedPath =>
    match node with
    | Node.map entries =>
      let value := mapGet entries part.key
      match part.selector with
      | some sel =>
        match value with
        | some (Node.seq items) =>
          match items.find? (fun it => selMatches it sel.key sel.value) with
          | some found =>
            if rest.isEmpty then
              match nestedPath with
              | some np =>
                match found with
                | Node.scalar (Scalar.str s) =>
                  let inner := traverseAndSetNoNest (parse s) (parsePath np) newValue
                  if inner.1 then
                    (true, Node.map (mapSet entries part.key
                      (Node.scalar (Scalar.str (serialize inner.2.1)))),
                      inner.2.2 ++ [LogMsg.updatedNested np part.key newValue])
                  else (false, node, inner.2.2 ++ [LogMsg.expectedString part.key (some found)])
                | _ => (false, node, [LogMsg.expectedString part.key (some found)])
              | none =>
                (true, Node.map (mapSet entries part.key (Node.scalar (Scalar.str newValue))),
                  [LogMsg.updatedDirect part.key value newValue])
            else
              let r := traverseAndSet parse serialize found rest newValue nestedPath
              (r.1, Node.map (mapSet entries part.key
                (Node.seq (setFirstMatch items sel.key sel.value r.2.1))), r.2.2)
          | none => (false, node, [LogMsg.couldNotFindItem part.key sel.key sel.value])
        | _ => (false, node, [LogMsg.expectedSequence part.key value])
      | none =>
        if rest.isEmpty then
          match nestedPath with
          | some np =>
            match value with
            | some (Node.scalar (Scalar.str s)) =>
              let inner := traverseAndSetNoNest (parse s) (parsePath np) newValue
              if inner.1 then
                (true, Node.map (mapSet entries part.key
                  (Node.scalar (Scalar.str (serialize inner.2.1)))),
                  inner.2.2 ++ [LogMsg.updatedNested np part.key newValue])
              else (false, node, inner.2.2 ++ [LogMsg.expectedString part.key value])
            | _ => (false, node, [LogMsg.expectedString part.key value])
          | none =>
            (true, Node.map (mapSet entries part.key (Node.scalar (Scalar.str newValue))),
              [LogMsg.updatedDirect part.key value newValue])
        else
          match value with
          | some v =>
            let r := traverseAndSet parse serialize v rest newValue nestedPath
            (r.1, Node.map (mapSet entries part.key r.2.1), r.2.2)
          | none =>
            (false, node, [LogMsg.expectedMap (rest.headD { key := "", selector := none }).key none])
    | _ => (false, node, [LogMsg.expectedMap part.key (some node)])

/-- Source `updateYamlPath`: parse the path, traverse from the document
contents. -/
def updateYamlPath (parse : String → Node) (serialize : Node → String)
    (doc : Node) (path : String) (newValue : String) (nestedPath : Option String) :
    Bool × Node × List LogMsg :=
  traverseAndSet parse serialize doc (parsePath path) newValue nestedPath

/-- JavaScript-style prefix test on character lists. -/
def startsWithChars : List Char → List Char → Bool
  | [], _ => true
  | _ :: _, [] => false
  | p :: ps, c :: cs => p == c && startsWithChars ps cs

/-- JavaScript `String.prototype.replace` with a plain-string pattern:
replace only the first occurrence (used for `.replace('.yaml', '')`). -/
def replaceFirstStr (pat : List Char) : List Char → List Char
  | [] => []
  | c :: rest =>
    if startsWithChars pat (c :: rest) then (c :: rest).drop pat.length
    else c :: replaceFirstStr pat rest

/-- One attempt of the regex `/\[name=([^\]]+)\]/` at a fixed position:
literal `[name=`, then a non-empty run of characters other than `]`,
then `]`; returns the capture group. -/
def scopeMatchAt (s : List Char) : Option (List Char) :=
  if startsWithChars ['[', 'n', 'a', 'm', 'e', '='] s then
    let t := s.drop 6
    let v := t.takeWhile (fun c => c != ']')
    if v.isEmpty then none
    else
      match t.dropWhile (fun c => c != ']') with
      | ']' :: _ => some v
      | _ => none
  else none

/-- Leftmost match of `/\[name=([^\]]+)\]/` (source
`config.yamlPath.match(...)`, capture group 1). -/
def findScope : List Char → Option (List Char)
  | [] => none
  | c :: rest =>
    match scopeMatchAt (c :: rest) with
    | some v => some v
    | none => findScope rest

/-- Result record of source `getCommitInfo`. -/
structure CommitInfo where
  scope : String
  imageTag : String
  imageName : String
deriving DecidableEq, Repr

/-- Source `getCommitInfo`.  `yamlPath` and `containerName` are the
optional config fields (`none` = absent); JavaScript truthiness makes
the empty string behave like absence. -/
def getCommitInfo (image : String) (yamlPath containerName : Option String)
    (manifestPath : String) : CommitInfo :=
  let imageParts := splitOnChar ':' image.data
  let imageTag :=
    match imageParts.getLast? with
    | some t => if t.isEmpty then "latest".data else t
    | none => "latest".data
  let imagePath := joinWithChar ':' imageParts.dropLast
  let imageName :=
    match (splitOnChar '/' imagePath).getLast? with
    | some n => if n.isEmpty then "unknown".data else n
    | none => "unknown".data
  let scope0 : List Char :=
    match yamlPath with
    | some yp => if yp.isEmpty then [] else (findScope yp.data).getD []
    | none => []
  let scope1 : List Char :=
    if scope0.isEmpty then
      match containerName with
      | some c => c.data
      | none => []
    else scope0
  let scope2 : List Char :=
    if scope1.isEmpty then
      replaceFirstStr ".yaml".data (((splitOnChar '/' manifestPath.data).getLast?).getD [])
    else scope1
  { scope := String.mk scope2, imageTag := String.mk imageTag, imageName := String.mk imageName }

/-- The commit message built in source `directUpdate` (and identically in
`createPullRequest`) from `getCommitInfo`'s result. -/
def commitMessage (image : String) (yamlPath containerName : Option String)
    (manifestPath : String) : String :=
  let info := getCommitInfo image yamlPath containerName manifestPath
  if info.scope.isEmpty then
    "ci: update " ++ info.imageName ++ " to " ++ info.imageTag
  else
    "ci(" ++ info.scope ++ "): update " ++ info.imageName ++ " to " ++ info.imageTag

/-- Trivial parser instance, used only to instantiate theorems that hold
for every parser. -/
def parse0 : String → Node := fun _ => Node.scalar Scalar.null

/-- Trivial serializer instance, used only to instantiate theorems that
hold for every serializer. -/
def serialize0 : Node → String := fun _ => ""

/-- Concrete parser instance mapping one fixed text to a small mapping,
used to exercise the nested-document branch in witnesses. -/
def demoParse : String → Node := fun s =>
  if s == "x: old" then Node.map [("x", Node.scalar (Scalar.str "old"))]
  else Node.scalar Scalar.null

/-- Concrete serializer instance for witnesses. -/
def demoSerialize : Node → String := fun _ => "x: new"

example : parsePath "" = [{ key := "", selector := none }] := rfl

example : parsePath "a[b=c]" =
    [{ key := "a", selector := some { key := "b", value := "c" } }] := rfl

example : parsePath "k[p=a]b]" =
    [{ key := "k", selector := some { key := "p", value := "a]b" } }] := rfl

example : parsePath "apps[name=deepfx].source.helm.values" =
    [{ key := "apps", selector := some { key := "name", value := "deepfx" } },
     { key := "source", selector := none },
     { key := "helm", selector := none },
     { key := "values", selector := none }] := rfl

example :
    getCommitInfo "restack/deepfx:main-a6d6193"
      (some "apps[name=deepfx].source.helm.values") none
      "platform/stacks/05-workloads/overlays/home/deepfx.yaml" =
    { scope := "deepfx", imageTag := "main-a6d6193", imageName := "deepfx" } := rfl

example :
    commitMessage "main-a6d6193" (some "apps[name=deepfx].source.targetRevision") none
      "platform/stacks/05-workloads/overlays/home/deepfx.yaml" =
    "ci(deepfx): update unknown to main-a6d6193" := rfl

/-! ### Helper lemmas -/

theorem mapGet_mapSet_self :
    ∀ (entries : List (String × Node)) (k : String) (v : Node),
      mapGet entries k = some v → mapSet entries k v = entries := by
  intro entries
  induction entries with
  | nil => intro k v h; simp [mapGet] at h
  | cons e rest ih =>
    intro k v h
    rcases e with ⟨k', v'⟩
    by_cases hk : (k' == k) = true
    · simp only [mapGet, if_pos hk] at h
      cases h
      simp only [mapSet, if_pos hk]
    · simp only [mapGet, if_neg hk] at h
      simp only [mapSet, if_neg hk, ih k v h]

theorem find?_setFirstMatch_self :
    ∀ (items : List Node) (pk pv : String) (a : Node),
      items.find? (fun it => selMatches it pk pv) = some a →
      setFirstMatch items pk pv a = items := by
  intro items pk pv a
  induction items with
  | nil => intro h; simp at h
  | cons it rest ih =>
    intro h
    cases hm : selMatches it pk pv with
    | true =>
      simp only [List.find?_cons, hm] at h
      cases h
      simp [setFirstMatch, hm]
    | false =>
      simp only [List.find?_cons, hm] at h
      simp [setFirstMatch, hm, ih h]

/-- Coherence of the split: the general traversal at an absent
`nestedPath` is exactly the specialised instance used for nested
documents. -/
theorem traverseAndSet_none (parse : String → Node) (serialize : Node → String) :
    ∀ (parts : List PathPart) (node : Node) (nv : String),
      traverseAndSet parse serialize node parts nv none =
        traverseAndSetNoNest node parts nv := by
  intro parts
  induction parts with
  | nil => intro node nv; rfl
  | cons part rest ih =>
    intro node nv
    cases node with
    | scalar v => rfl
    | seq items => rfl
    | map entries =>
      rcases part with ⟨key, sel⟩
      simp only [traverseAndSet, traverseAndSetNoNest]
      cases sel with
      | none =>
        by_cases hrest : rest.isEmpty = true
        · simp only [if_pos hrest]
        · simp only [if_neg hrest]
          cases hv : mapGet entries key with
          | none => rfl
          | some v => simp only [ih]
      | some s =>
        cases hv : mapGet entries key with
        | none => rfl
        | some v =>
          cases v with
          | scalar w => rfl
          | map es => rfl
          | seq items =>
            dsimp only
            cases hf : items.find? (fun it => selMatches it s.key s.value) with
            | none => rfl
            | some found =>
              by_cases hrest : rest.isEmpty = true
              · simp only [if_pos hrest]
              · simp only [if_neg hrest, ih]

/-- A `false` return leaves the tree untouched: the source mutates in
place only on paths that return `true`, and a failing nested mutation is
confined to the fresh nested document, which is then discarded. -/
theorem traverseAndSet_false_unchanged (parse : String → Node) (serialize : Node → String) :
    ∀ (parts : List PathPart) (node : Node) (nv : String) (np : Option String),
      (traverseAndSet parse serialize node parts nv np).1 = false →
      (traverseAndSet parse serialize node parts nv np).2.1 = node := by
  intro parts
  induction parts with
  | nil => intro node nv np h; rfl
  | cons part rest ih =>
    intro node nv np h
    cases node with
    | scalar v => rfl
    | seq items => rfl
    | map entries =>
      rcases part with ⟨key, sel⟩
      simp only [traverseAndSet] at h ⊢
      cases sel with
      | none =>
        by_cases hrest : rest.isEmpty = true
        · simp only [if_pos hrest] at h ⊢
          cases np with
          | none => simp at h
          | some npv =>
            dsimp only at h ⊢
            cases hv : mapGet entries key with
            | none => rfl
            | some v =>
              cases v with
              | map es => rfl
              | seq its => rfl
              | scalar w =>
                cases w with
                | num n => rfl
                | bool b => rfl
                | null => rfl
                | str s =>
                  rw [hv] at h
                  dsimp only at h ⊢
                  by_cases hi : (traverseAndSetNoNest (parse s) (parsePath npv) nv).1 = true
                  · rw [if_pos hi] at h; simp at h
                  · rw [if_neg hi]
        · simp only [if_neg hrest] at h ⊢
          cases hv : mapGet entries key with
          | none => rfl
          | some v =>
            rw [hv] at h
            dsimp only at h ⊢
            rw [ih v nv np h, mapGet_mapSet_self entries key v hv]
      | some s =>
        dsimp only at h ⊢
        cases hv : mapGet entries key with
        | none => rfl
        | some v =>
          rw [hv] at h
          cases v with
          | scalar w => rfl
          | map es => rfl
          | seq items =>
            dsimp only at h ⊢
            cases hf : items.find? (fun it => selMatches it s.key s.value) with
            | none => rfl
            | some found =>
              rw [hf] at h
              dsimp only at h ⊢
              by_cases hrest : rest.isEmpty = true
              · rw [if_pos hrest] at h ⊢
                cases np with
                | none => simp at h
                | some npv =>
                  cases found with
                  | map es => rfl
                  | seq its => rfl
                  | scalar w =>
                    cases w with
                    | num n => rfl
                    | bool b => rfl
                    | null => rfl
                    | str t =>
                      dsimp only at h ⊢
                      by_cases hi : (traverseAndSetNoNest (parse t) (parsePath npv) nv).1 = true
                      · rw [if_pos hi] at h; simp at h
                      · rw [if_neg hi]
              · rw [if_neg hrest] at h ⊢
                dsimp only at h ⊢
                rw [ih found nv np h, find?_setFirstMatch_self items s.key s.value found hf,
                  mapGet_mapSet_self entries key (Node.seq items) hv]

/-- Every reachable `false` return is accompanied by at least one
diagnostic (`parts` is never empty when entered through
`updateYamlPath`, since splitting a path always yields at least one
segment). -/
theorem traverseAndSet_false_logs (parse : String → Node) (serialize : Node → String) :
    ∀ (parts : List PathPart) (node : Node) (nv : String) (np : Option String),
      parts ≠ [] →
      (traverseAndSet parse serialize node parts nv np).1 = false →
      (traverseAndSet parse serialize node parts nv np).2.2 ≠ [] := by
  intro parts
  induction parts with
  | nil => intro node nv np hne; exact absurd rfl hne
  | cons part rest ih =>
    intro node nv np _ h
    cases node with
    | scalar v => simp [traverseAndSet]
    | seq items => simp [traverseAndSet]
    | map entries =>
      rcases part with ⟨key, sel⟩
      simp only [traverseAndSet] at h ⊢
      cases sel with
      | none =>
        by_cases hrest : rest.isEmpty = true
        · simp only [if_pos hrest] at h ⊢
          cases np with
          | none => simp at h
          | some npv =>
            dsimp only at h ⊢
            cases hv : mapGet entries key with
            | none => simp
            | some v =>
              cases v with
              | map es => simp
              | seq its => simp
              | scalar w =>
                cases w with
                | num n => simp
                | bool b => simp
                | null => simp
                | str s =>
                  rw [hv] at h
                  dsimp only at h ⊢
                  by_cases hi : (traverseAndSetNoNest (parse s) (parsePath npv) nv).1 = true
                  · rw [if_pos hi] at h; simp at h
                  · rw [if_neg hi]; simp
        · simp only [if_neg hrest] at h ⊢
          have hrne : rest ≠ [] := by
            intro hn; rw [hn] at hrest; exact hrest rfl
          cases hv : mapGet entries key with
          | none => simp
          | some v =>
            rw [hv] at h
            dsimp only at h ⊢
            exact ih v nv np hrne h
      | some s =>
        dsimp only at h ⊢
        cases hv : mapGet entries key with
        | none => simp
        | some v =>
          rw [hv] at h
          cases v with
          | scalar w => simp
          | map es => simp
          | seq items =>
            dsimp only at h ⊢
            cases hf : items.find? (fun it => selMatches it s.key s.value) with
            | none => simp
            | some found =>
              rw [hf] at h
              dsimp only at h ⊢
              by_cases hrest : rest.isEmpty = true
              · rw [if_pos hrest] at h ⊢
                cases np with
                | none => simp at h
                | some npv =>
                  cases found with
                  | map es => simp
                  | seq its => simp
                  | scalar w =>
                    cases w with
                    | num n => simp
                    | bool b => simp
                    | null => simp
                    | str t =>
                      dsimp only at h ⊢
                      by_cases hi : (traverseAndSetNoNest (parse t) (parsePath npv) nv).1 = true
                      · rw [if_pos hi] at h; simp at h
                      · rw [if_neg hi]; simp
              · rw [if_neg hrest] at h ⊢
                dsimp only at h ⊢
                have hrne : rest ≠ [] := by
                  intro hn; rw [hn] at hrest; exact hrest rfl
                exact ih found nv np hrne h

theorem splitOnChar_ne_nil (sep : Char) : ∀ (s : List Char), splitOnChar sep s ≠ [] := by
  intro s
  induction s with
  | nil => simp [splitOnChar]
  | cons c rest ih =>
    by_cases hc : (c == sep) = true
    · simp [splitOnChar, hc]
    · simp only [splitOnChar, if_neg hc]
      cases hsp : splitOnChar sep rest with
      | nil => simp
      | cons seg segs => simp

theorem parsePath_ne_nil (path : String) : parsePath path ≠ [] := by
  unfold parsePath
  intro h
  rw [List.map_eq_nil_iff] at h
  exact splitOnChar_ne_nil '.' path.data h

/-- What the selector-scan predicate accepts: exactly a mapping whose
entry at the predicate key is the string scalar equal to the predicate
value (strict equality, so numeric or boolean scalars never match). -/
theorem selMatches_iff (item : Node) (pk pv : String) :
    selMatches item pk pv = true ↔
      ∃ es, item = Node.map es ∧ mapGet es pk = some (Node.scalar (Scalar.str pv)) := by
  cases item with
  | scalar v => simp [selMatches]
  | seq its => simp [selMatches]
  | map es =>
    simp only [selMatches]
    constructor
    · intro h
      refine ⟨es, rfl, ?_⟩
      cases hg : mapGet es pk with
      | none => rw [hg] at h; simp at h
      | some v =>
        rw [hg] at h
        cases v with
        | map es2 => simp at h
        | seq its => simp at h
        | scalar w =>
          cases w with
          | num n => simp at h
          | bool b => simp at h
          | null => simp at h
          | str t =>
            simp only [beq_iff_eq] at h
            rw [h]
    · rintro ⟨es2, he, hg⟩
      cases he
      rw [hg]
      simp

theorem takeWhile_dropWhile_of_append (p : Char → Bool) :
    ∀ (a : List Char) (c : Char) (b : List Char), (∀ x ∈ a, p x = true) → p c = false →
      (a ++ c :: b).takeWhile p = a ∧ (a ++ c :: b).dropWhile p = c :: b := by
  intro a
  induction a with
  | nil =>
    intro c b _ hc
    constructor
    · simp [List.takeWhile_cons, hc]
    · simp [List.dropWhile_cons, hc]
  | cons x xs ih =>
    intro c b ha hc
    have hx : p x = true := ha x (by simp)
    have hxs : ∀ y ∈ xs, p y = true := fun y hy => ha y (by simp [hy])
    obtain ⟨h1, h2⟩ := ih c b hxs hc
    constructor
    · simp [List.takeWhile_cons, hx, h1]
    · simp [List.dropWhile_cons, hx, h2]

theorem eq_dropLast_append_of_getLast? {α : Type} :
    ∀ (l : List α) (a : α), l.getLast? = some a → l = l.dropLast ++ [a] := by
  intro l
  induction l with
  | nil => intro a h; simp at h
  | cons x xs ih =>
    intro a h
    cases xs with
    | nil =>
      simp only [List.getLast?_singleton, Option.some.injEq] at h
      simp [h]
    | cons y ys =>
      rw [List.getLast?_cons_cons] at h
      have h2 := ih a h
      calc x :: y :: ys = x :: ((y :: ys).dropLast ++ [a]) := by rw [← h2]
        _ = (x :: y :: ys).dropLast ++ [a] := by simp

theorem matchSegment_sound (s : List Char) (k p v : String) :
    matchSegment s = some (k, p, v) → SegForm s k.data p.data v.data := by
  intro h
  unfold matchSegment at h
  cases hd : s.dropWhile isWordChar with
  | nil => rw [hd] at h; simp at h
  | cons c1 rest2 =>
    rw [hd] at h
    dsimp only at h
    split at h
    case isFalse => simp at h
    case isTrue h1 =>
      cases hd2 : rest2.dropWhile isWordChar with
      | nil => rw [hd2] at h; simp at h
      | cons c2 rest4 =>
        rw [hd2] at h
        dsimp only at h
        split at h
        case isFalse => simp at h
        case isTrue h2 =>
          cases hl : rest4.getLast? with
          | none => rw [hl] at h; simp at h
          | some c3 =>
            rw [hl] at h
            dsimp only at h
            split at h
            case isFalse => simp at h
            case isTrue h3 =>
              split at h
              case isTrue => simp at h
              case isFalse hcond =>
                rw [Bool.not_eq_true, Bool.or_eq_false_iff, Bool.or_eq_false_iff,
                  Bool.or_eq_false_iff] at hcond
                obtain ⟨⟨⟨hk0, hp0⟩, hv0⟩, hva⟩ := hcond
                injection h with h
                injection h with hk h
                injection h with hp hv
                subst hk; subst hp; subst hv
                dsimp only
                constructor
                · have hs2 : s = s.takeWhile isWordChar ++ (c1 :: rest2) := by
                    rw [← hd, List.takeWhile_append_dropWhile]
                  have hr2 : rest2 = rest2.takeWhile isWordChar ++ (c2 :: rest4) := by
                    rw [← hd2, List.takeWhile_append_dropWhile]
                  have hr4 : rest4 = rest4.dropLast ++ [c3] :=
                    eq_dropLast_append_of_getLast? rest4 c3 hl
                  subst h1; subst h2; subst h3
                  have hkey : rest2 =
                      rest2.takeWhile isWordChar ++ '=' :: (rest4.dropLast ++ [']']) := by
                    conv_lhs => rw [hr2]
                    rw [← hr4]
                  rw [← hkey]
                  exact hs2
                · refine ⟨?_, ?_, ?_, ?_, ?_, ?_⟩
                  · intro hn; rw [hn] at hk0; simp at hk0
                  · rw [List.all_eq_true]
                    intro x hx; exact List.mem_takeWhile_imp hx
                  · intro hn; rw [hn] at hp0; simp at hp0
                  · rw [List.all_eq_true]
                    intro x hx; exact List.mem_takeWhile_imp hx
                  · intro hn; rw [hn] at hv0; simp at hv0
                  · simp only [Bool.not_eq_false'] at hva
                    exact hva

theorem matchSegment_complete (s key pk pv : List Char) :
    SegForm s key pk pv →
    matchSegment s = some (String.mk key, String.mk pk, String.mk pv) := by
  rintro ⟨hs, hk0, hka, hp0, hpa, hv0, hva⟩
  have hword : ∀ x ∈ key, isWordChar x = true := by
    intro x hx; exact (List.all_eq_true.mp hka) x hx
  have hpword : ∀ x ∈ pk, isWordChar x = true := by
    intro x hx; exact (List.all_eq_true.mp hpa) x hx
  have hbr : isWordChar '[' = false := by decide
  have heq : isWordChar '=' = false := by decide
  obtain ⟨ht1, hd1⟩ := takeWhile_dropWhile_of_append isWordChar key '['
    (pk ++ '=' :: (pv ++ [']'])) hword hbr
  obtain ⟨ht2, hd2⟩ := takeWhile_dropWhile_of_append isWordChar pk '='
    (pv ++ [']']) hpword heq
  unfold matchSegment
  rw [hs, hd1]
  dsimp only
  rw [if_pos rfl, hd2]
  dsimp only
  rw [if_pos rfl, List.getLast?_concat]
  dsimp only
  rw [if_pos rfl, List.dropLast_concat]
  have hkE : key.isEmpty = false := by
    cases key with
    | nil => exact absurd rfl hk0
    | cons a l => rfl
  have hpE : pk.isEmpty = false := by
    cases pk with
    | nil => exact absurd rfl hp0
    | cons a l => rfl
  have hvE : pv.isEmpty = false := by
    cases pv with
    | nil => exact absurd rfl hv0
    | cons a l => rfl
  rw [ht1, ht2, hkE, hpE, hvE, hva]
  rfl

/-! ### Claim theorems -/

/-- C1 counterexample: with a final selector step and no nested path, the
source's direct update executes `node.set(part.key, newValue)` on the
outer map, so the whole sequence under the step's key is replaced
wholesale by the scalar `newValue`; the matched sequence element is not
the entity mutated, contrary to the claim. -/
theorem c1_counterexample :
    traverseAndSet parse0 serialize0
        (Node.map [("apps", Node.seq [Node.map [("name", Node.scalar (Scalar.str "a"))]])])
        [{ key := "apps", selector := some { key := "name", value := "a" } }]
        "v" none =
      (true, Node.map [("apps", Node.scalar (Scalar.str "v"))],
        [LogMsg.updatedDirect "apps"
          (some (Node.seq [Node.map [("name", Node.scalar (Scalar.str "a"))]])) "v"]) := rfl

/-- C1 amended: when the final step carries a selector that matches, and
no nested path is given, the call succeeds but the write lands on the
outer mapping's entry at the step's key, replacing the sequence
wholesale with the scalar `newValue`. -/
theorem c1_amended_final_selector_overwrites_outer
    (parse : String → Node) (serialize : Node → String)
    (entries : List (String × Node)) (key pk pv nv : String) (items : List Node)
    (hv : mapGet entries key = some (Node.seq items))
    (hf : (items.find? (fun it => selMatches it pk pv)).isSome = true) :
    traverseAndSet parse serialize (Node.map entries)
      [{ key := key, selector := some { key := pk, value := pv } }] nv none =
    (true, Node.map (mapSet entries key (Node.scalar (Scalar.str nv))),
      [LogMsg.updatedDirect key (some (Node.seq items)) nv]) := by
  obtain ⟨found, hfound⟩ := Option.isSome_iff_exists.mp hf
  simp only [traverseAndSet, hv]
  rw [hfound]
  rfl

/-- C1 amended, witness at a concrete input. -/
theorem c1_amended_witness :
    traverseAndSet parse0 serialize0
      (Node.map [("cont", Node.seq [Node.map [("name", Node.scalar (Scalar.str "web"))]])])
      [{ key := "cont", selector := some { key := "name", value := "web" } }] "img" none =
    (true, Node.map (mapSet [("cont", Node.seq [Node.map [("name", Node.scalar (Scalar.str "web"))]])]
        "cont" (Node.scalar (Scalar.str "img"))),
      [LogMsg.updatedDirect "cont"
        (some (Node.seq [Node.map [("name", Node.scalar (Scalar.str "web"))]])) "img"]) :=
  c1_amended_final_selector_overwrites_outer parse0 serialize0
    [("cont", Node.seq [Node.map [("name", Node.scalar (Scalar.str "web"))]])]
    "cont" "name" "web" "img"
    [Node.map [("name", Node.scalar (Scalar.str "web"))]] rfl rfl

/-- C2: the commit messages actually built by `getCommitInfo` +
`directUpdate` for the two claimed scenarios.  The single template
`ci(scope): update imageName to imageTag` yields
`… update deepfx to …` and `… update unknown to …`, not the
`… update image deepfx to …` / `… update helm to …` that the claim (and
the repository's own `app-of-apps.test.ts`) expects; the code has no
image-vs-helm classification, contradicting its own tests. -/
theorem c2_code_divergence :
    commitMessage "restack/deepfx:main-a6d6193"
        (some "apps[name=deepfx].source.helm.values") none
        "platform/stacks/05-workloads/overlays/home/deepfx.yaml" =
      "ci(deepfx): update deepfx to main-a6d6193" ∧
    commitMessage "main-a6d6193"
        (some "apps[name=deepfx].source.targetRevision") none
        "platform/stacks/05-workloads/overlays/home/deepfx.yaml" =
      "ci(deepfx): update unknown to main-a6d6193" ∧
    commitMessage "restack/deepfx:main-a6d6193"
        (some "apps[name=deepfx].source.helm.values") none
        "platform/stacks/05-workloads/overlays/home/deepfx.yaml" ≠
      "ci(deepfx): update image deepfx to main-a6d6193" ∧
    commitMessage "main-a6d6193"
        (some "apps[name=deepfx].source.targetRevision") none
        "platform/stacks/05-workloads/overlays/home/deepfx.yaml" ≠
      "ci(deepfx): update helm to main-a6d6193" :=
  ⟨rfl, rfl, by decide, by decide⟩

/-- C3: every domain failure of `updateYamlPath` is reported by a
`false` return together with at least one diagnostic, and a `false`
return leaves the outer document completely unchanged — including the
nested-document branch, whose fresh inner document is discarded on
failure.  (The embedding is a total function, mirroring that no domain
failure is signalled by a thrown exception.) -/
theorem c3_false_is_diagnosed_noop (parse : String → Node) (serialize : Node → String)
    (doc : Node) (path newValue : String) (nestedPath : Option String)
    (h : (updateYamlPath parse serialize doc path newValue nestedPath).1 = false) :
    (updateYamlPath parse serialize doc path newValue nestedPath).2.1 = doc ∧
    (updateYamlPath parse serialize doc path newValue nestedPath).2.2 ≠ [] :=
  ⟨traverseAndSet_false_unchanged parse serialize (parsePath path) doc newValue nestedPath h,
   traverseAndSet_false_logs parse serialize (parsePath path) doc newValue nestedPath
      (parsePath_ne_nil path) h⟩

/-- C3 witness: a concrete failing update (non-mapping document) leaves
the document unchanged and emits a diagnostic. -/
theorem c3_false_is_diagnosed_noop_witness :
    (updateYamlPath parse0 serialize0 (Node.seq []) "a" "v" none).2.1 = Node.seq [] ∧
    (updateYamlPath parse0 serialize0 (Node.seq []) "a" "v" none).2.2 ≠ [] :=
  c3_false_is_diagnosed_noop parse0 serialize0 (Node.seq []) "a" "v" none rfl

/-- C9: the empty path is not rejected: it parses to a single step whose
key is the empty string, and on a mapping document with no nested path
the mutation sets the empty-string key at top level and returns `true` —
no non-empty-path or word-character-key constraint is enforced. -/
theorem c9_empty_path (parse : String → Node) (serialize : Node → String)
    (entries : List (String × Node)) (nv : String) :
    parsePath "" = [{ key := "", selector := none }] ∧
    updateYamlPath parse serialize (Node.map entries) "" nv none =
      (true, Node.map (mapSet entries "" (Node.scalar (Scalar.str nv))),
        [LogMsg.updatedDirect "" (mapGet entries "") nv]) :=
  ⟨rfl, rfl⟩

/-- C10: `imageTag` falls back to the literal `latest` when the
substring after the last `:` is empty, and `imageName` falls back to
the literal `unknown` when the last `/`-component of the part before
the last `:` is empty — including when the value has no `:` at all, in
which case that part is the empty string. -/
theorem c10_commit_fallbacks (image : String) (yamlPath containerName : Option String)
    (manifestPath : String) :
    ((splitOnChar ':' image.data).getLast? = some [] →
      (getCommitInfo image yamlPath containerName manifestPath).imageTag = "latest") ∧
    ((splitOnChar '/' (joinWithChar ':' (splitOnChar ':' image.data).dropLast)).getLast? =
        some [] →
      (getCommitInfo image yamlPath containerName manifestPath).imageName = "unknown") := by
  constructor
  · intro h
    simp only [getCommitInfo]
    rw [h]
    rfl
  · intro h
    simp only [getCommitInfo]
    rw [h]
    rfl

/-- C10 witness: `repo/name:` gets tag `latest`; a bare `plain` value
(no `:`) gets image name `unknown`. -/
theorem c10_commit_fallbacks_witness :
    (getCommitInfo "repo/name:" none none "m.yaml").imageTag = "latest" ∧
    (getCommitInfo "plain" none none "m.yaml").imageName = "unknown" :=
  ⟨(c10_commit_fallbacks "repo/name:" none none "m.yaml").1 rfl,
   (c10_commit_fallbacks "plain" none none "m.yaml").2 rfl⟩

/-- C4: with a nested path present and a final step without a selector,
the string value is parsed as an independent document, the full
`updateYamlPath` operation is run on it with the nested path and the new
value (and no further nested path), and exactly when that inner call
returns `true` the outer mapping's entry at the step's key is
overwritten with the serialized nested document and `true` is returned;
a non-string working value, or an inner failure, yields `false` with
nothing mutated. -/
theorem c4_nested_branch (parse : String → Node) (serialize : Node → String)
    (entries : List (String × Node)) (key np nv : String) :
    (∀ s, mapGet entries key = some (Node.scalar (Scalar.str s)) →
      traverseAndSet parse serialize (Node.map entries)
          [{ key := key, selector := none }] nv (some np) =
        (if (updateYamlPath parse serialize (parse s) np nv none).1 then
          (true, Node.map (mapSet entries key (Node.scalar (Scalar.str
              (serialize (updateYamlPath parse serialize (parse s) np nv none).2.1)))),
            (updateYamlPath parse serialize (parse s) np nv none).2.2 ++
              [LogMsg.updatedNested np key nv])
        else (false, Node.map entries,
            (updateYamlPath parse serialize (parse s) np nv none).2.2 ++
              [LogMsg.expectedString key (some (Node.scalar (Scalar.str s)))]))) ∧
    ((∀ s, mapGet entries key ≠ some (Node.scalar (Scalar.str s))) →
      traverseAndSet parse serialize (Node.map entries)
          [{ key := key, selector := none }] nv (some np) =
        (false, Node.map entries, [LogMsg.expectedString key (mapGet entries key)])) := by
  constructor
  · intro s hs
    simp only [traverseAndSet, hs, updateYamlPath, traverseAndSet_none]
    rfl
  · intro hns
    simp only [traverseAndSet]
    cases hv : mapGet entries key with
    | none => rfl
    | some v =>
      cases v with
      | map es => rfl
      | seq its => rfl
      | scalar w =>
        cases w with
        | num n => rfl
        | bool b => rfl
        | null => rfl
        | str t => exact absurd hv (hns t)

/-- C4 witness: a concrete nested update through a string entry, with a
parser instance mapping the entry text to a small mapping. -/
theorem c4_nested_branch_witness :
    traverseAndSet demoParse demoSerialize
      (Node.map [("values", Node.scalar (Scalar.str "x: old"))])
      [{ key := "values", selector := none }] "new" (some "x") =
    (true, Node.map [("values", Node.scalar (Scalar.str "x: new"))],
      [LogMsg.updatedDirect "x" (some (Node.scalar (Scalar.str "old"))) "new",
       LogMsg.updatedNested "x" "values" "new"]) := by
  have h := (c4_nested_branch demoParse demoSerialize
    [("values", Node.scalar (Scalar.str "x: old"))] "values" "x" "new").1 "x: old" rfl
  rw [h]
  rfl

/-- C5: a selector step requires the looked-up value to be a sequence;
resolution scans the elements in order and picks the first mapping whose
entry at the predicate key is exactly the predicate value as a string
(case-sensitive, no coercion of numeric-looking values); if the value is
not a sequence, or no element matches, the call returns `false` with a
diagnostic and no write, and never falls back to scalar treatment. -/
theorem c5_selector_semantics (parse : String → Node) (serialize : Node → String)
    (entries : List (String × Node)) (key pk pv nv : String)
    (rest : List PathPart) (np : Option String) :
    ((∀ items, mapGet entries key ≠ some (Node.seq items)) →
      traverseAndSet parse serialize (Node.map entries)
          ({ key := key, selector := some { key := pk, value := pv } } :: rest) nv np =
        (false, Node.map entries,
          [LogMsg.expectedSequence key (mapGet entries key)])) ∧
    (∀ items, mapGet entries key = some (Node.seq items) →
      items.find? (fun it => selMatches it pk pv) = none →
      traverseAndSet parse serialize (Node.map entries)
          ({ key := key, selector := some { key := pk, value := pv } } :: rest) nv np =
        (false, Node.map entries, [LogMsg.couldNotFindItem key pk pv])) ∧
    (∀ items el, items.find? (fun it => selMatches it pk pv) = some el →
      selMatches el pk pv = true ∧
      ∃ pre post, items = pre ++ el :: post ∧ ∀ x ∈ pre, selMatches x pk pv = false) ∧
    (∀ item, selMatches item pk pv = true ↔
      ∃ es, item = Node.map es ∧ mapGet es pk = some (Node.scalar (Scalar.str pv))) ∧
    (∀ items el, mapGet entries key = some (Node.seq items) →
      items.find? (fun it => selMatches it pk pv) = some el → rest ≠ [] →
      traverseAndSet parse serialize (Node.map entries)
          ({ key := key, selector := some { key := pk, value := pv } } :: rest) nv np =
        ((traverseAndSet parse serialize el rest nv np).1,
          Node.map (mapSet entries key (Node.seq
            (setFirstMatch items pk pv (traverseAndSet parse serialize el rest nv np).2.1))),
          (traverseAndSet parse serialize el rest nv np).2.2)) := by
  refine ⟨?_, ?_, ?_, ?_, ?_⟩
  · intro hne
    simp only [traverseAndSet]
  · intro items hv hf
    simp only [traverseAndSet, hv, hf]
  · intro items el hf
    obtain ⟨hp, pre, post, heq, hall⟩ := List.find?_eq_some.mp hf
    refine ⟨hp, pre, post, heq, ?_⟩
    intro x hx
    have := hall x hx
    simpa using this
  · intro item
    exact selMatches_iff item pk pv
  · intro items el hv hf hrne
    simp only [traverseAndSet, hv]
    rw [hf]
    have hre : rest.isEmpty = false := by
      cases rest with
      | nil => exact absurd rfl hrne
      | cons a l => rfl
    rw [hre]
    rfl

/-- C5 witness: a numeric-looking selector value `"1"` does not match a
numeric scalar `1` (strict string equality, no coercion), so the call
fails. -/
theorem c5_selector_semantics_witness :
    traverseAndSet parse0 serialize0
      (Node.map [("apps", Node.seq [Node.map [("name", Node.scalar (Scalar.num 1))]])])
      [{ key := "apps", selector := some { key := "name", value := "1" } }] "v" none =
    (false, Node.map [("apps", Node.seq [Node.map [("name", Node.scalar (Scalar.num 1))]])],
      [LogMsg.couldNotFindItem "apps" "name" "1"]) :=
  (c5_selector_semantics parse0 serialize0
      [("apps", Node.seq [Node.map [("name", Node.scalar (Scalar.num 1))]])]
      "apps" "name" "1" "v" [] none).2.1
    [Node.map [("name", Node.scalar (Scalar.num 1))]] rfl rfl

/-- C6 counterexample: the regex group `(.+)` also matches `]`, so the
segment `k[p=a]b]` parses to a selector step with predicate value
`a]b`, not to the literal key that the claim's grammar (predicate value
containing no `]`) would make of it. -/
theorem c6_counterexample :
    parsePath "k[p=a]b]" =
      [{ key := "k", selector := some { key := "p", value := "a]b" } }] ∧
    parsePath "k[p=a]b]" ≠ [{ key := "k[p=a]b]", selector := none }] :=
  ⟨rfl, by decide⟩

/-- C6 amended: `parsePath` splits on `.` into one step per segment; a
segment decomposes as `key[predicateKey=predicateValue]` — key and
predicate key non-empty word-character runs, predicate value a non-empty
run of non-line-terminator characters (possibly containing `]`) with the
segment ending in `]` — exactly when it becomes a selector step with
those captures, and every other segment is a literal key with no
selector. -/
theorem c6_amended_segment_grammar (path : String) :
    parsePath path = (splitOnChar '.' path.data).map segmentToPart ∧
    (∀ seg key pk pv, SegForm seg key pk pv →
      segmentToPart seg =
        { key := String.mk key,
          selector := some { key := String.mk pk, value := String.mk pv } }) ∧
    (∀ seg, (∀ key pk pv, ¬ SegForm seg key pk pv) →
      segmentToPart seg = { key := String.mk seg, selector := none }) := by
  refine ⟨rfl, ?_, ?_⟩
  · intro seg key pk pv hform
    unfold segmentToPart
    rw [matchSegment_complete seg key pk pv hform]
  · intro seg hnone
    unfold segmentToPart
    cases hm : matchSegment seg with
    | none => rfl
    | some t =>
      obtain ⟨k, p, v⟩ := t
      exact absurd (matchSegment_sound seg k p v hm) (hnone k.data p.data v.data)

/-- C6 amended, witness: `a[b=c]` decomposes per the grammar and yields
the selector step. -/
theorem c6_amended_segment_grammar_witness :
    segmentToPart "a[b=c]".data =
      { key := "a", selector := some { key := "b", value := "c" } } :=
  (c6_amended_segment_grammar "a[b=c]").2.1 "a[b=c]".data "a".data "b".data "c".data
    (by refine ⟨by decide, by decide, by decide, by decide, by decide, by decide, by decide⟩)

theorem traverseAndSet_last_selector_nested (parse : String → Node) (serialize : Node → String) :
    ∀ (parts : List PathPart) (node : Node) (nv np : String) (lp : PathPart) (sel : Selector),
      parts.getLast? = some lp → lp.selector = some sel →
      (traverseAndSet parse serialize node parts nv (some np)).1 = false := by
  intro parts
  induction parts with
  | nil => intro node nv np lp sel hl; simp at hl
  | cons part rest ih =>
    intro node nv np lp sel hl hsel
    cases node with
    | scalar v => rfl
    | seq items => rfl
    | map entries =>
      cases rest with
      | nil =>
        simp only [List.getLast?_singleton, Option.some.injEq] at hl
        subst hl
        rcases part with ⟨key, selo⟩
        cases selo with
        | none => simp at hsel
        | some sno =>
          simp only [traverseAndSet]
          cases hv : mapGet entries key with
          | none => rfl
          | some v =>
            cases v with
            | scalar w => rfl
            | map es => rfl
            | seq items =>
              dsimp only
              cases hf : items.find? (fun it => selMatches it sno.key sno.value) with
              | none => rfl
              | some found =>
                have hm := List.find?_some hf
                rw [selMatches_iff] at hm
                obtain ⟨es, hfe, _⟩ := hm
                subst hfe
                rfl
      | cons p2 r2 =>
        rw [List.getLast?_cons_cons] at hl
        rcases part with ⟨key, selo⟩
        simp only [traverseAndSet]
        cases selo with
        | some sno =>
          cases hv : mapGet entries key with
          | none => rfl
          | some v =>
            cases v with
            | scalar w => rfl
            | map es => rfl
            | seq items =>
              dsimp only
              cases hf : items.find? (fun it => selMatches it sno.key sno.value) with
              | none => rfl
              | some found =>
                exact ih found nv np lp sel hl hsel
        | none =>
          cases hv : mapGet entries key with
          | none => rfl
          | some v =>
            dsimp only
            exact ih v nv np lp sel hl hsel

/-- C8: when the parsed path's final step carries a selector and a
nested path is supplied, `updateYamlPath` always returns `false`: the
selector resolves the working value to a mapping element, which can
never satisfy the nested branch's string requirement. -/
theorem c8_final_selector_nested_always_false (parse : String → Node)
    (serialize : Node → String) (doc : Node) (path nv np : String)
    (lp : PathPart) (sel : Selector)
    (hl : (parsePath path).getLast? = some lp) (hsel : lp.selector = some sel) :
    (updateYamlPath parse serialize doc path nv (some np)).1 = false :=
  traverseAndSet_last_selector_nested parse serialize (parsePath path) doc nv np lp sel hl hsel

/-- C8 witness: a matching final selector step with a nested path fails
even though the selector itself resolves. -/
theorem c8_final_selector_nested_witness :
    (updateYamlPath parse0 serialize0
        (Node.map [("apps", Node.seq [Node.map [("name", Node.scalar (Scalar.str "x"))]])])
        "apps[name=x]" "v" (some "b")).1 = false :=
  c8_final_selector_nested_always_false parse0 serialize0
    (Node.map [("apps", Node.seq [Node.map [("name", Node.scalar (Scalar.str "x"))]])])
    "apps[name=x]" "v" "b"
    { key := "apps", selector := some { key := "name", value := "x" } }
    { key := "name", value := "x" } rfl rfl

end K8sUpdater
